import Mathlib

/-!
Shallow embedding of the transcript-synchronization and vocabulary-bank
component of the polyglot media-to-vocabulary app (source: src/App.jsx),
together with theorems settling the specification claims about it.

JavaScript strings become Lean String, integers become Nat, playback time
(a JS number holding seconds) becomes Rat, and a JS value that may be a
string or null becomes Option String.  The in-memory translation cache,
a plain JS object, becomes an association list from keys to cached values,
where an absent key (undefined) is distinguished from a stored null.
External network calls (the MyMemory translation endpoint) are modelled by
passing the value the call would resolve to as an explicit oracle argument,
since each embedded operation performs at most one such call.
-/

namespace Polyglot

/-- A transcript line as built in handleFileChange: millisecond start/end
times, sentence text, optional speaker label.  The JS field named end is
called endMs here because end is a Lean keyword. -/
structure Line where
  start : Nat
  endMs : Nat
  text : String
  speaker : Option String
deriving DecidableEq, Repr

/-- A vocabulary-bank entry as created by saveWord:
braces word, translation, lang, date: Date.now() braces. -/
structure Entry where
  word : String
  translation : String
  lang : String
  date : Nat
deriving DecidableEq, Repr

/-- The translation cache cache.current: a JS object used as a map.  A key
maps to nothing (undefined), to null (recorded failed lookup), or to a
translation string. -/
abbrev Cache := List (String × Option String)

/-- Reading cache.current of a key: none models undefined, some none models a
stored null, some (some s) a stored string. -/
def cacheGet (c : Cache) (k : String) : Option (Option String) :=
  (c.find? (fun p => p.1 == k)).map (fun p => p.2)

/-- Writing cache.current of a key. -/
def cacheSet (c : Cache) (k : String) (v : Option String) : Cache :=
  if c.any (fun p => p.1 == k) then
    c.map (fun p => if p.1 == k then (p.1, v) else p)
  else
    c ++ [(k, v)]

/-- JS truthiness of a cache read, as tested by if (cache.current of cacheKey):
undefined, null and the empty string are falsy; a non-empty string is truthy. -/
def jsTruthy : Option (Option String) → Bool
  | some (some s) => !s.isEmpty
  | _ => false

/-- JS expression x or-else d for x a string-or-null value: yields d when x is
null or the empty string, otherwise the string x. -/
def jsOrStr : Option String → String → String
  | some s, d => if s.isEmpty then d else s
  | none, d => d

/-- ASCII letter test matching the regex class a-zA-Z. -/
def isAsciiLetter (c : Char) : Bool :=
  (('a' : Char) ≤ c && c ≤ ('z' : Char)) || (('A' : Char) ≤ c && c ≤ ('Z' : Char))

/-- Cleaning done in handleWordClick: word.replace(non-letters, empty).
Case is preserved. -/
def cleanClick (w : String) : String :=
  String.mk (w.data.filter isAsciiLetter)

/-- Cleaning done in saveWord: word.replace(non-letters, empty).toLowerCase(). -/
def cleanSave (w : String) : String :=
  String.mk ((w.data.filter isAsciiLetter).map Char.toLower)

/-- The cache key template, clean underscore targetLang. -/
def cacheKey (clean lang : String) : String :=
  clean ++ "_" ++ lang

/-- Outcome of a word click: whether a new external translation request was
issued, the popup word, the popup translation finally shown (none renders the
pending/muted state), and the cache afterwards. -/
structure ClickResult where
  requested : Bool
  popupWord : String
  popupTranslation : Option String
  cache : Cache
deriving DecidableEq, Repr

/-- Embedding of handleWordClick.  The tr argument is the value the external
translateWord call would resolve to for this (cleaned word, language) pair;
none is the null returned on network error or non-success response.  Returns
none when the early-return guard fires (no popup at all). -/
def handleWordClick (c : Cache) (word lang : String) (tr : Option String) :
    Option ClickResult :=
  let clean := cleanClick word
  if clean.isEmpty || clean.length < 2 then none
  else
    let key := cacheKey clean lang
    if jsTruthy (cacheGet c key) then
      some ⟨false, clean, (cacheGet c key).join, c⟩
    else
      some ⟨true, clean, tr, cacheSet c key tr⟩

/-- Embedding of saveWord.  Returns the new word bank, the new cache, and
whether an external translation request was issued.  The tr argument is the
value translateWord would resolve to; now is Date.now(). -/
def saveWord (bank : List Entry) (c : Cache) (word lang : String)
    (tr : Option String) (now : Nat) : List Entry × Cache × Bool :=
  let clean := cleanSave word
  if clean.isEmpty || clean.length < 2 || bank.any (fun w => w.word == clean) then
    (bank, c, false)
  else
    let key := cacheKey clean lang
    let cached := cacheGet c key
    let translation : Option String :=
      if jsTruthy cached then cached.join else tr
    let requested : Bool := !jsTruthy cached
    ({ word := clean, translation := jsOrStr translation clean,
       lang := lang, date := now } :: bank,
     cacheSet c key translation, requested)

/-- Embedding of removeWord: filter out entries with that exact word. -/
def removeWord (bank : List Entry) (word : String) : List Entry :=
  bank.filter (fun w => w.word != word)

/-- Tail of the reduce in the activeIndex effect:
transcript.reduce((best, line, i) => (line.start / 1000 <= currentTime ? i : best), 0).
The accumulator best and the running element index i are explicit. -/
def activeIdxAux (time : ℚ) (i best : Nat) : List Line → Nat
  | [] => best
  | l :: ls =>
      activeIdxAux time (i + 1)
        (if (l.start : ℚ) / 1000 ≤ time then i else best) ls

/-- Embedding of the activeIndex effect as the pure function it computes from
the playback time and the transcript lines. -/
def activeIndex (time : ℚ) (lines : List Line) : Nat :=
  activeIdxAux time 0 0 lines

/-- Whether index i of the line list qualifies at the given playback time,
that is, lines at i exists and its start millis divided by 1000 is at most
the time. -/
def qualB (time : ℚ) (lines : List Line) (i : Nat) : Bool :=
  match lines.get? i with
  | some l => decide ((l.start : ℚ) / 1000 ≤ time)
  | none => false

/-- Transcription of the specification sentence for the active index: the
greatest index i such that lines at i has startMillis/1000 at most time, and 0
when the sequence is empty or no index qualifies. -/
def specActiveIndex (time : ℚ) (lines : List Line) : Nat :=
  Nat.findGreatest (fun i => qualB time lines i = true) lines.length

/-- Relative index of the last qualifying line of a list, if any; used to
relate the reduce to the greatest qualifying index. -/
def lastQ (time : ℚ) : List Line → Option Nat
  | [] => none
  | l :: ls =>
      match lastQ time ls with
      | some j => some (j + 1)
      | none => if (l.start : ℚ) / 1000 ≤ time then some 0 else none

theorem activeIdxAux_eq_lastQ (time : ℚ) :
    ∀ (ls : List Line) (i best : Nat),
      activeIdxAux time i best ls =
        (match lastQ time ls with
         | some j => i + j
         | none => best) := by
  intro ls
  induction ls with
  | nil => intro i best; rfl
  | cons l ls ih =>
      intro i best
      rw [activeIdxAux, ih, lastQ]
      rcases h : lastQ time ls with _ | j
      · by_cases hq : (l.start : ℚ) / 1000 ≤ time
        · simp [hq]
        · simp only [hq, if_neg, not_false_iff]
      · show i + 1 + j = i + (j + 1)
        omega

theorem lastQ_none_spec (time : ℚ) :
    ∀ (ls : List Line), lastQ time ls = none →
      ∀ k, qualB time ls k = false := by
  intro ls
  induction ls with
  | nil => intro _ k; simp [qualB]
  | cons l ls ih =>
      intro h k
      rw [lastQ] at h
      rcases h' : lastQ time ls with _ | j
      · rw [h'] at h
        by_cases hq : (l.start : ℚ) / 1000 ≤ time
        · simp [hq] at h
        · rcases k with _ | k
          · simp [qualB, hq]
          · simp only [qualB, List.get?_cons_succ]
            simpa [qualB] using ih h' k
      · rw [h'] at h; simp at h

theorem lastQ_some_spec (time : ℚ) :
    ∀ (ls : List Line) (j : Nat), lastQ time ls = some j →
      qualB time ls j = true ∧ ∀ k, j < k → qualB time ls k = false := by
  intro ls
  induction ls with
  | nil => intro j h; simp [lastQ] at h
  | cons l ls ih =>
      intro j h
      rw [lastQ] at h
      rcases h' : lastQ time ls with _ | j'
      · rw [h'] at h
        by_cases hq : (l.start : ℚ) / 1000 ≤ time
        · simp only [hq, if_pos] at h
          cases h
          refine ⟨by simp [qualB, hq], ?_⟩
          intro k hk
          rcases k with _ | k
          · omega
          · simp only [qualB, List.get?_cons_succ]
            simpa [qualB] using lastQ_none_spec time ls h' k
        · simp [hq] at h
      · rw [h'] at h
        cases h
        obtain ⟨hq, hmax⟩ := ih j' h'
        constructor
        · simpa [qualB] using hq
        · intro k hk
          rcases k with _ | k
          · omega
          · simp only [qualB, List.get?_cons_succ]
            have := hmax k (by omega)
            simpa [qualB] using this

theorem qualB_lt_length {time : ℚ} {ls : List Line} {i : Nat}
    (h : qualB time ls i = true) : i < ls.length := by
  rw [qualB] at h
  rcases hg : ls.get? i with _ | l
  · rw [hg] at h; simp at h
  · obtain ⟨hlt, -⟩ := List.get?_eq_some.mp hg
    exact hlt

theorem activeIndex_eq_spec (time : ℚ) (lines : List Line) :
    activeIndex time lines = specActiveIndex time lines := by
  rw [activeIndex, activeIdxAux_eq_lastQ, specActiveIndex]
  rcases h : lastQ time lines with _ | j
  · symm
    rw [Nat.findGreatest_eq_zero_iff]
    intro n _ _ hP
    rw [lastQ_none_spec time lines h n] at hP
    cases hP
  · have hspec := lastQ_some_spec time lines j h
    show 0 + j = _
    rw [Nat.zero_add]
    symm
    rw [Nat.findGreatest_eq_iff]
    refine ⟨Nat.le_of_lt (qualB_lt_length hspec.1), fun _ => hspec.1, ?_⟩
    intro n hjn _ hP
    rw [hspec.2 n hjn] at hP
    cases hP

/-- The fixed stop-word set STOP_WORDS of the source, in source order. -/
def stopWords : List String :=
  ["the", "a", "an", "is", "it", "in", "on", "at", "to", "of", "and", "or",
   "but", "was", "are", "be", "this", "that", "with", "for", "as", "by",
   "from", "have", "has", "had", "not", "we", "they", "he", "she", "you",
   "i", "my", "our", "his", "her", "its", "do", "did", "will", "would",
   "can", "could", "should", "been", "were", "so", "if", "up", "out",
   "about", "what", "which", "who", "when", "how", "all", "some", "one",
   "more", "also", "into", "just", "like", "get", "got", "than", "then",
   "now", "here", "there", "their", "your", "been", "very", "even", "only",
   "back", "after", "use", "two", "well", "way", "new", "want", "because",
   "any", "these", "give", "day", "most", "us"]

/-- Splitting a character list at characters satisfying p, the splitter of
the regex split used by getTopKeywords.  Maximal runs between separator
characters are returned; empty chunks produced by adjacent separators are
harmless because cleaning discards them by the length test. -/
def splitByAux (p : Char → Bool) : List Char → List Char → List (List Char)
  | [], acc => [acc.reverse]
  | c :: cs, acc =>
      if p c then acc.reverse :: splitByAux p cs []
      else splitByAux p cs (c :: acc)

/-- Split a string at characters satisfying p. -/
def splitBy (p : Char → Bool) (s : String) : List String :=
  (splitByAux p s.data []).map String.mk

/-- Token cleaning in getTopKeywords:
w.toLowerCase().replace(non-lowercase-letters, empty). -/
def cleanToken (w : String) : String :=
  String.mk ((w.data.map Char.toLower).filter
    (fun c => ('a' : Char) ≤ c && c ≤ ('z' : Char)))

/-- Whether a cleaned token is kept: longer than 4 characters and not a stop
word. -/
def tokenKept (clean : String) : Bool :=
  decide (4 < clean.length) && !(stopWords.contains clean)

/-- One step of the frequency accumulation freq at clean = (freq at clean
or-else 0) + 1.  A JS object with string keys preserves insertion order, so
the mapping is an association list: a fresh key is appended at the end. -/
def bump (freq : List (String × Nat)) (w : String) : List (String × Nat) :=
  if freq.any (fun p => p.1 == w) then
    freq.map (fun p => if p.1 == w then (p.1, p.2 + 1) else p)
  else
    freq ++ [(w, 1)]

/-- The cleaned tokens of the transcript that pass the keep test, in
encounter order. -/
def keptTokens (transcript : List Line) : List String :=
  (transcript.map (fun line =>
    ((splitBy Char.isWhitespace line.text).map cleanToken).filter tokenKept)).flatten

/-- The frequency mapping accumulated by getTopKeywords, as an association
list in insertion (first-encounter) order, the order Object.entries yields. -/
def freqMap (transcript : List Line) : List (String × Nat) :=
  (keptTokens transcript).foldl bump []

/-- Insertion step of a stable descending sort by count: the new pair goes
after every pair whose count is at least its own, matching the stable JS
sort with comparator b count minus a count. -/
def insertDesc (x : String × Nat) : List (String × Nat) → List (String × Nat)
  | [] => [x]
  | q :: qs => if x.2 ≤ q.2 then q :: insertDesc x qs else x :: q :: qs

/-- Stable sort of the frequency pairs by descending count. -/
def sortCountDesc (l : List (String × Nat)) : List (String × Nat) :=
  l.foldl (fun acc x => insertDesc x acc) []

/-- Embedding of getTopKeywords: accumulate frequencies of kept cleaned
tokens, sort pairs by descending count (stable), take the first count pairs,
return their words. -/
def getTopKeywords (transcript : List Line) (count : Nat := 6) : List String :=
  ((sortCountDesc (freqMap transcript)).take count).map (fun p => p.1)

/-- JS Array.prototype.join with the given separator, as used twice in
downloadVocabCSV. -/
def jsJoin (sep : String) : List String → String
  | [] => ""
  | x :: xs => xs.foldl (fun acc y => acc ++ sep ++ y) x

/-- The rows built by downloadVocabCSV, each already comma-joined: the header
row first, then one row per entry in bank order, fields unescaped. -/
def csvRows (bank : List Entry) : List String :=
  (["Word", "Translation", "Language"] ::
    bank.map (fun w => [w.word, w.translation, w.lang])).map (jsJoin ",")

/-- The CSV text produced by downloadVocabCSV (the pure content of the blob;
the download click is presentation). -/
def vocabCSV (bank : List Entry) : String :=
  jsJoin "\n" (csvRows bank)

/-- Number of newline characters in a string. -/
def countNL (s : String) : Nat :=
  s.data.count '\n'

/-- Number of text lines of a string, counted as newline characters plus
one. -/
def lineCount (s : String) : Nat :=
  countNL s + 1

/-- Embedding of the wordBank initializer
JSON.parse(localStorage.getItem(key) or-else empty-array-literal) with the
catch returning the empty array.  The parse argument abstracts JSON.parse
restricted to entry arrays, none modelling a thrown parse error; stored is
the value of getItem, none when the key is absent. -/
def loadWordBank (parse : String → Option (List Entry))
    (stored : Option String) : List Entry :=
  (parse (jsOrStr stored "[]")).getD []

/-- One user-level mutation of the vocabulary bank: a save click (carrying
what the external translation call would resolve to and the clock reading), a
remove click, or the confirmed clear-all. -/
inductive VocabOp where
  | save (word lang : String) (tr : Option String) (now : Nat)
  | remove (word : String)
  | clear

/-- Applying one vocabulary operation to the bank and cache. -/
def stepOp : List Entry × Cache → VocabOp → List Entry × Cache
  | (bank, c), VocabOp.save w l tr now =>
      ((saveWord bank c w l tr now).1, (saveWord bank c w l tr now).2.1)
  | (bank, c), VocabOp.remove w => (removeWord bank w, c)
  | (_, c), VocabOp.clear => ([], c)

/-- Running a sequence of operations from the empty bank and empty cache. -/
def runOps (ops : List VocabOp) : List Entry × Cache :=
  ops.foldl stepOp ([], [])

/-- The two-line transcript of the specification scenario: starts 0 ms and
5000 ms. -/
def demoLines : List Line :=
  [⟨0, 0, "hello world", none⟩, ⟨5000, 0, "goodbye now", none⟩]

theorem qualB_mono {t1 t2 : ℚ} (h : t1 ≤ t2) (ls : List Line) (i : Nat) :
    qualB t1 ls i = true → qualB t2 ls i = true := by
  rw [qualB, qualB]
  rcases ls.get? i with _ | l
  · exact fun hx => hx
  · intro h1
    rw [decide_eq_true_eq] at h1 ⊢
    exact le_trans h1 h

/-- Claim C2: for every transcript line sequence and playback time, the
active index computed by the reduce equals the greatest index whose start
millis over 1000 is at most the time, with 0 as the floor for an empty
sequence or when no line qualifies; and on lines starting at 0 ms and
5000 ms, time 3 gives index 0, time 6 gives index 1, time 0 gives index 0. -/
theorem C2_activeIndex_greatest :
    (∀ (time : ℚ) (lines : List Line),
      activeIndex time lines = specActiveIndex time lines) ∧
    activeIndex 3 demoLines = 0 ∧
    activeIndex 6 demoLines = 1 ∧
    activeIndex 0 demoLines = 0 := by
  refine ⟨activeIndex_eq_spec, ?_, ?_, ?_⟩
  · norm_num [activeIndex, activeIdxAux, demoLines]
  · norm_num [activeIndex, activeIdxAux, demoLines]
  · norm_num [activeIndex, activeIdxAux, demoLines]

/-- Claim C7: for sorted transcript lines and playback times t1 at most t2,
the active index at t1 is at most the active index at t2. -/
theorem C7_activeIndex_monotone (lines : List Line) (t1 t2 : ℚ)
    (_hsorted : lines.Pairwise (fun a b => a.start ≤ b.start))
    (ht : t1 ≤ t2) :
    activeIndex t1 lines ≤ activeIndex t2 lines := by
  rw [activeIndex_eq_spec, activeIndex_eq_spec, specActiveIndex, specActiveIndex]
  by_cases h0 : Nat.findGreatest (fun i => qualB t1 lines i = true) lines.length = 0
  · rw [h0]; exact Nat.zero_le _
  · have hP : qualB t1 lines
        (Nat.findGreatest (fun i => qualB t1 lines i = true) lines.length) = true :=
      (Nat.findGreatest_eq_iff.1 rfl).2.1 h0
    exact Nat.le_findGreatest (Nat.findGreatest_le _)
      (qualB_mono ht lines _ hP)

/-- Witness for C7 at the scenario transcript with times 1 and 6. -/
theorem C7_activeIndex_monotone_witness :
    activeIndex 1 demoLines ≤ activeIndex 6 demoLines :=
  C7_activeIndex_monotone demoLines 1 6 (by decide) (by norm_num)

/-- Counterexample to claim C1 as stated: take the cache holding an explicit
recorded miss (a stored null) for the pair (hi, ar).  A further click on hi
issues a new external translation request (requested is true) and overwrites
the miss with the fresh outcome, because the source tests the cached value
with JS truthiness, under which null is indistinguishable from an absent
entry; the claim requires that no new request be issued. -/
theorem C1_cached_miss_counterexample :
    handleWordClick [(cacheKey "hi" "ar", (none : Option String))] "hi" "ar"
        (some "X") =
      some ⟨true, "hi", some "X", [(cacheKey "hi" "ar", some "X")]⟩ ∧
    ¬ (Option.map ClickResult.requested
        (handleWordClick [(cacheKey "hi" "ar", (none : Option String))] "hi" "ar"
          (some "X")) = some false) := by
  decide

/-- Claim C1 amended: a recorded miss (cached null) is treated exactly like a
pair never requested: a subsequent lookup of the same pair issues a new
external translation request and stores its outcome, both on a word click
and on a save, so failed lookups are retried automatically; only a cached
non-empty success string is returned immediately without a new request.
Each clause carries its own cache-state hypothesis: the first covers a click
on a pair with a recorded miss, the second a click on a pair with a cached
non-empty success (no request, cached value returned, cache unchanged), the
third a save on a pair with a recorded miss. -/
theorem C1_cached_miss_retried (c : Cache) (word lang : String)
    (tr : Option String) (bank : List Entry) (now : Nat)
    (hvalid : ¬((cleanClick word).isEmpty || (cleanClick word).length < 2) = true) :
    (cacheGet c (cacheKey (cleanClick word) lang) = some none →
      handleWordClick c word lang tr =
        some ⟨true, cleanClick word,
              tr, cacheSet c (cacheKey (cleanClick word) lang) tr⟩) ∧
    (∀ s : String, s.isEmpty = false →
      cacheGet c (cacheKey (cleanClick word) lang) = some (some s) →
      handleWordClick c word lang tr = some ⟨false, cleanClick word, some s, c⟩) ∧
    (cacheGet c (cacheKey (cleanSave word) lang) = some none →
      ((cleanSave word).isEmpty || decide ((cleanSave word).length < 2)
        || bank.any (fun w => w.word == cleanSave word)) = false →
      (saveWord bank c word lang tr now).2.2 = true ∧
      (saveWord bank c word lang tr now).2.1 =
        cacheSet c (cacheKey (cleanSave word) lang) tr) := by
  refine ⟨?_, ?_, ?_⟩
  · intro hmiss
    rw [handleWordClick]
    rw [if_neg (by exact fun hx => hvalid hx)]
    simp [hmiss, jsTruthy]
  · intro s hs hcached
    rw [handleWordClick]
    rw [if_neg (by exact fun hx => hvalid hx)]
    simp [hcached, jsTruthy, hs]
  · intro hmiss2 hguard
    rw [saveWord]
    rw [if_neg (by rw [hguard]; exact fun hx => Bool.false_ne_true hx)]
    simp [hmiss2, jsTruthy]

/-- Witness for the amended C1 at the pair (hi, ar): with a recorded miss in
the cache the click issues a fresh request, and with a cached non-empty
success Y the click returns Y without a request and leaves the cache
unchanged. -/
theorem C1_cached_miss_retried_witness :
    (handleWordClick [(cacheKey "hi" "ar", (none : Option String))] "hi" "ar"
        (some "X") =
      some ⟨true, cleanClick "hi",
            some "X",
            cacheSet [(cacheKey "hi" "ar", (none : Option String))]
              (cacheKey (cleanClick "hi") "ar") (some "X")⟩) ∧
    (handleWordClick [(cacheKey "hi" "ar", some "Y")] "hi" "ar" (some "X") =
      some ⟨false, cleanClick "hi", some "Y",
            [(cacheKey "hi" "ar", some "Y")]⟩) :=
  ⟨(C1_cached_miss_retried [(cacheKey "hi" "ar", (none : Option String))]
      "hi" "ar" (some "X") [] 0 (by decide)).1 (by decide),
   (C1_cached_miss_retried [(cacheKey "hi" "ar", some "Y")]
      "hi" "ar" (some "X") [] 0 (by decide)).2.1 "Y" (by decide) (by decide)⟩

/-- Counterexample to claim C4 as stated: clicking the word Hello! cleans it
to Hello, not hello — handleWordClick strips non-letters but preserves case;
lowercasing only happens in saveWord. -/
theorem C4_click_clean_counterexample :
    Option.map ClickResult.popupWord
        (handleWordClick [] "Hello!" "ar" (some "مرحبا")) = some "Hello" ∧
    ¬ (Option.map ClickResult.popupWord
        (handleWordClick [] "Hello!" "ar" (some "مرحبا")) = some "hello") := by
  decide

/-- Claim C4 amended: clicking the word Hello! cleans it to Hello (non-letter
characters stripped, case preserved); saving it cleans to hello, and with
target language ar and the translation service returning the Arabic
greeting, the saved entry has word hello, that translation, and language ar. -/
theorem C4_save_scenario :
    cleanClick "Hello!" = "Hello" ∧
    cleanSave "Hello!" = "hello" ∧
    (saveWord [] [] "Hello!" "ar" (some "مرحبا") 0).1 =
      [{ word := "hello", translation := "مرحبا", lang := "ar", date := 0 }] := by
  refine ⟨rfl, rfl, rfl⟩

theorem saveWord_guard_noop (bank : List Entry) (c : Cache) (word lang : String)
    (tr : Option String) (now : Nat)
    (h : ((cleanSave word).isEmpty || decide ((cleanSave word).length < 2)
          || bank.any (fun w => w.word == cleanSave word)) = true) :
    saveWord bank c word lang tr now = (bank, c, false) := by
  rw [saveWord, if_pos h]

theorem saveWord_word_nodup (bank : List Entry) (c : Cache) (word lang : String)
    (tr : Option String) (now : Nat) (h : (bank.map Entry.word).Nodup) :
    ((saveWord bank c word lang tr now).1.map Entry.word).Nodup := by
  rw [saveWord]
  by_cases hg : ((cleanSave word).isEmpty || decide ((cleanSave word).length < 2)
      || bank.any (fun w => w.word == cleanSave word)) = true
  · rw [if_pos hg]; exact h
  · rw [if_neg hg]
    simp only [List.map_cons]
    refine List.nodup_cons.mpr ⟨?_, h⟩
    intro hmem
    apply hg
    obtain ⟨w, hw, hww⟩ := List.mem_map.mp hmem
    have : bank.any (fun w => w.word == cleanSave word) = true :=
      List.any_eq_true.mpr ⟨w, hw, by simp [hww]⟩
    simp [this]

theorem removeWord_word_nodup (bank : List Entry) (word : String)
    (h : (bank.map Entry.word).Nodup) :
    ((removeWord bank word).map Entry.word).Nodup :=
  List.Nodup.sublist (List.Sublist.map Entry.word (List.filter_sublist bank)) h

theorem runOps_aux_nodup :
    ∀ (ops : List VocabOp) (bank : List Entry) (c : Cache),
      (bank.map Entry.word).Nodup →
      (((ops.foldl stepOp (bank, c)).1).map Entry.word).Nodup := by
  intro ops
  induction ops with
  | nil => intro bank c h; exact h
  | cons op ops ih =>
      intro bank c h
      rw [List.foldl_cons]
      cases op with
      | save w l tr now => exact ih _ _ (saveWord_word_nodup bank c w l tr now h)
      | remove w => exact ih _ _ (removeWord_word_nodup bank w h)
      | clear => exact ih _ _ (by simp)

/-- Claim C3: any sequence of save, remove and clear operations from the
empty store keeps at most one entry per distinct cleaned word (the entry
words stay pairwise distinct), and a save whose cleaned word is shorter than
2 characters or already present leaves the store unchanged, so saving the
same cleaned word twice never produces two entries. -/
theorem C3_store_unique :
    (∀ ops : List VocabOp, (((runOps ops).1).map Entry.word).Nodup) ∧
    (∀ (bank : List Entry) (c : Cache) (word lang : String)
        (tr : Option String) (now : Nat),
      ((cleanSave word).length < 2 ∨
        bank.any (fun w => w.word == cleanSave word) = true) →
      (saveWord bank c word lang tr now).1 = bank) := by
  constructor
  · intro ops
    exact runOps_aux_nodup ops [] [] (by simp)
  · intro bank c word lang tr now h
    have hg : ((cleanSave word).isEmpty || decide ((cleanSave word).length < 2)
        || bank.any (fun w => w.word == cleanSave word)) = true := by
      rcases h with h | h
      · simp [h]
      · simp [h]
    rw [saveWord_guard_noop bank c word lang tr now hg]

/-- Witness for C3: a bank already holding hello, plus the duplicate-save
no-op at the word Hello! (which cleans to hello), and the invariant at a
concrete two-operation run. -/
theorem C3_store_unique_witness :
    (saveWord [{ word := "hello", translation := "x", lang := "ar", date := 0 }]
        [] "Hello!" "ar" (some "y") 1).1 =
      [{ word := "hello", translation := "x", lang := "ar", date := 0 }] :=
  C3_store_unique.2
    [{ word := "hello", translation := "x", lang := "ar", date := 0 }]
    [] "Hello!" "ar" (some "y") 1 (Or.inr (by decide))

theorem jsOrStr_not_empty (t : Option String) (d : String)
    (hd : d.isEmpty = false) : (jsOrStr t d).isEmpty = false := by
  cases t with
  | none => exact hd
  | some s =>
      rw [jsOrStr]
      by_cases hs : s.isEmpty = true
      · rw [if_pos hs]; exact hd
      · rw [if_neg hs]
        exact Bool.not_eq_true _ ▸ Bool.of_not_eq_true hs

/-- Claim C10: whenever saveWord actually creates an entry, the translation
of that entry is a non-empty string; and when the cache held nothing truthy
for the pair and the external lookup resolved to null, the translation falls
back to the cleaned word itself. -/
theorem C10_translation_fallback (bank : List Entry) (c : Cache)
    (word lang : String) (tr : Option String) (now : Nat)
    (hcreated : (saveWord bank c word lang tr now).1 ≠ bank) :
    ∃ e : Entry,
      (saveWord bank c word lang tr now).1 = e :: bank ∧
      e.word = cleanSave word ∧
      e.translation.isEmpty = false ∧
      ((jsTruthy (cacheGet c (cacheKey (cleanSave word) lang)) = false ∧
          tr = none) →
        e.translation = cleanSave word) := by
  by_cases hg : ((cleanSave word).isEmpty || decide ((cleanSave word).length < 2)
      || bank.any (fun w => w.word == cleanSave word)) = true
  · exact absurd (by rw [saveWord_guard_noop bank c word lang tr now hg])
      hcreated
  · have hclean : (cleanSave word).isEmpty = false := by
      rcases hb : (cleanSave word).isEmpty with _ | _
      · rfl
      · exact absurd (by simp [hb]) hg
    rw [saveWord, if_neg hg]
    refine ⟨_, rfl, rfl, ?_, ?_⟩
    · exact jsOrStr_not_empty _ _ hclean
    · rintro ⟨hfalsy, htr⟩
      simp only [hfalsy, htr]
      rfl

/-- Claim C9: startup load of the persisted vocabulary.  The parse oracle
stands for JSON.parse on entry arrays; the two hypotheses record that the
literal empty-array text parses to the empty array and that the empty string
is not valid JSON (JSON.parse throws on it).  A missing key or a parse
failure yields the empty store, never an error; a stored valid JSON array
yields exactly the parsed entries. -/
theorem C9_load_persisted (parse : String → Option (List Entry))
    (hp : parse "[]" = some [])
    (hempty : parse "" = none) :
    loadWordBank parse none = [] ∧
    (∀ (s : String) (arr : List Entry),
      parse s = some arr → loadWordBank parse (some s) = arr) ∧
    (∀ s : String, parse s = none → loadWordBank parse (some s) = []) := by
  refine ⟨?_, ?_, ?_⟩
  · rw [loadWordBank, jsOrStr, hp]; rfl
  · intro s arr hs
    have hne : s.isEmpty = false := by
      rcases hb : s.isEmpty with _ | _
      · rfl
      · rw [(String.isEmpty_iff s).mp hb] at hs
        rw [hempty] at hs
        cases hs
    rw [loadWordBank, jsOrStr, if_neg (by simp [hne]), hs]
    rfl
  · intro s hs
    rw [loadWordBank, jsOrStr]
    by_cases hb : s.isEmpty = true
    · rw [if_pos hb, hp]; rfl
    · rw [if_neg hb, hs]; rfl

/-- Witness for C9 with a two-point concrete parse oracle. -/
theorem C9_load_persisted_witness :
    loadWordBank
        (fun s => if s = "[]" then some [] else none) none = [] ∧
    (∀ (s : String) (arr : List Entry),
      (fun s => if s = "[]" then some ([] : List Entry) else none) s = some arr →
      loadWordBank (fun s => if s = "[]" then some [] else none) (some s) = arr) ∧
    (∀ s : String,
      (fun s => if s = "[]" then some ([] : List Entry) else none) s = none →
      loadWordBank (fun s => if s = "[]" then some [] else none) (some s) = []) :=
  C9_load_persisted (fun s => if s = "[]" then some [] else none)
    (by simp) (by simp)

theorem filter_ne_append_perm :
    ∀ (bank : List Entry) (correct : Entry), correct ∈ bank →
      (bank.map Entry.word).Nodup →
      ((bank.filter (fun w => w.word != correct.word)) ++ [correct]).Perm bank := by
  intro bank
  induction bank with
  | nil => intro correct hmem _; cases hmem
  | cons b bs ih =>
      intro correct hmem hnd
      rw [List.map_cons, List.nodup_cons] at hnd
      by_cases hw : b.word = correct.word
      · have hcb : correct = b := by
          rcases List.mem_cons.mp hmem with h | h
          · exact h
          · exact absurd (hw ▸ List.mem_map_of_mem Entry.word h) hnd.1
        have hfilter : bs.filter (fun w => w.word != correct.word) = bs := by
          refine List.filter_eq_self.mpr ?_
          intro w hwmem
          refine bne_iff_ne.mpr ?_
          intro heq
          exact hnd.1 (hw ▸ heq ▸ List.mem_map_of_mem Entry.word hwmem)
        rw [List.filter_cons, if_neg (by simp [hw]), hfilter, hcb]
        exact List.perm_append_singleton b bs
      · have hcbs : correct ∈ bs := by
          rcases List.mem_cons.mp hmem with h | h
          · exact absurd (congrArg Entry.word h.symm) hw
          · exact h
        rw [List.filter_cons, if_pos (by simp [hw]), List.cons_append]
        exact List.Perm.cons b (ih correct hcbs hnd.2)

/-- Claim C5: the quiz-options effect.  The correct entry is the bank entry
at quizIndex mod bank length; the shuffles (sort with a random comparator)
are modelled by universally quantified permutations, shuffled for the
distractor pool and opts for the final display order of
others.slice(0,3) concat correct.  For a store with distinct words and at
least 4 entries the displayed options are exactly 4 pairwise distinct
entries containing the correct one exactly once; for a store of size 2 or 3
the options are exactly all entries of the store. -/
theorem C5_quiz_options (bank : List Entry) (qi : Nat)
    (shuffled opts : List Entry) (correct : Entry)
    (hnd : (bank.map Entry.word).Nodup)
    (_hlen : 2 ≤ bank.length)
    (hc : bank.get? (qi % bank.length) = some correct)
    (hsh : shuffled.Perm (bank.filter (fun w => w.word != correct.word)))
    (hopts : opts.Perm (shuffled.take 3 ++ [correct])) :
    (4 ≤ bank.length →
      opts.length = 4 ∧ opts.Nodup ∧ opts.count correct = 1) ∧
    ((bank.length = 2 ∨ bank.length = 3) → opts.Perm bank) := by
  have hmem : correct ∈ bank := List.get?_mem hc
  have hperm := filter_ne_append_perm bank correct hmem hnd
  have hflen : (bank.filter (fun w => w.word != correct.word)).length + 1 =
      bank.length := by
    have := hperm.length_eq
    simpa using this
  have hshlen : shuffled.length + 1 = bank.length :=
    (congrArg (· + 1) hsh.length_eq).trans hflen
  have hword : ∀ w ∈ shuffled, w.word ≠ correct.word := by
    intro w hw
    have hwf := hsh.mem_iff.mp hw
    exact bne_iff_ne.mp (List.mem_filter.mp hwf).2
  have hword3 : ∀ w ∈ shuffled.take 3, w.word ≠ correct.word :=
    fun w hw => hword w (List.mem_of_mem_take hw)
  have hnotmem3 : correct ∉ shuffled.take 3 :=
    fun hx => hword3 correct hx rfl
  have hndsh : (shuffled.map Entry.word).Nodup := by
    refine (hsh.map Entry.word).nodup_iff.mpr ?_
    exact List.Nodup.sublist
      (List.Sublist.map Entry.word (List.filter_sublist bank)) hnd
  have hnd3 : ((shuffled.take 3).map Entry.word).Nodup :=
    List.Nodup.sublist (List.Sublist.map Entry.word (List.take_sublist 3 shuffled))
      hndsh
  constructor
  · intro h4
    have htakelen : (shuffled.take 3).length = 3 := by
      rw [List.length_take]
      omega
    refine ⟨?_, ?_, ?_⟩
    · rw [hopts.length_eq, List.length_append, htakelen]
      rfl
    · refine hopts.nodup_iff.mpr ?_
      refine List.Nodup.of_map Entry.word ?_
      rw [List.map_append]
      refine List.nodup_append.mpr ⟨hnd3, List.nodup_singleton _, ?_⟩
      intro a ha hb
      obtain ⟨w, hw, hwa⟩ := List.mem_map.mp ha
      rcases List.mem_singleton.mp (by simpa using hb) with hb'
      exact hword3 w hw (hwa.trans hb')
    · rw [hopts.count_eq, List.count_append]
      rw [List.count_eq_zero.mpr hnotmem3]
      simp
  · intro h23
    have htake : shuffled.take 3 = shuffled := by
      refine List.take_of_length_le ?_
      omega
    rw [htake] at hopts
    exact hopts.trans ((hsh.append_right [correct]).trans hperm)

theorem bump_map_fst (f : List (String × Nat)) (t : String) :
    (bump f t).map Prod.fst = f.map Prod.fst ∨
    (bump f t).map Prod.fst = f.map Prod.fst ++ [t] := by
  rw [bump]
  by_cases h : f.any (fun p => p.1 == t) = true
  · left
    rw [if_pos h, List.map_map]
    refine List.map_congr_left ?_
    intro p _
    show (if p.1 == t then (p.1, p.2 + 1) else p).1 = p.1
    split <;> rfl
  · right
    rw [if_neg h, List.map_append]
    rfl

theorem bump_fst_eq (t : String) (p : String × Nat) :
    ((if p.1 == t then (p.1, p.2 + 1) else p) : String × Nat).1 = p.1 := by
  split <;> rfl

theorem bump_any_preserve (f : List (String × Nat)) (t w : String)
    (h : f.any (fun p => p.1 == w) = true) :
    (bump f t).any (fun p => p.1 == w) = true := by
  obtain ⟨p, hp, hpe⟩ := List.any_eq_true.mp h
  rw [bump]
  by_cases ht : f.any (fun p => p.1 == t) = true
  · rw [if_pos ht]
    refine List.any_eq_true.mpr
      ⟨if p.1 == t then (p.1, p.2 + 1) else p, List.mem_map_of_mem _ hp, ?_⟩
    rw [bump_fst_eq]
    exact hpe
  · rw [if_neg ht, List.any_append]
    exact Bool.or_eq_true_iff.mpr (Or.inl h)

theorem bump_any_self (f : List (String × Nat)) (t : String) :
    (bump f t).any (fun p => p.1 == t) = true := by
  by_cases ht : f.any (fun p => p.1 == t) = true
  · exact bump_any_preserve f t t ht
  · rw [bump, if_neg ht, List.any_append]
    refine Bool.or_eq_true_iff.mpr (Or.inr ?_)
    simp

theorem bump_keys_nodup (f : List (String × Nat)) (t : String)
    (h : (f.map Prod.fst).Nodup) : ((bump f t).map Prod.fst).Nodup := by
  rcases bump_map_fst f t with he | he
  · rw [he]; exact h
  · rw [he]
    refine List.nodup_append.mpr ⟨h, List.nodup_singleton t, ?_⟩
    intro a ha hb
    rw [List.mem_singleton.mp hb] at ha
    obtain ⟨p, hp, hpe⟩ := List.mem_map.mp ha
    have : (bump f t).map Prod.fst = f.map Prod.fst ++ [t] := he
    rw [bump] at this
    by_cases hany : f.any (fun p => p.1 == t) = true
    · obtain ⟨q, hq, hqe⟩ := List.any_eq_true.mp hany
      have ht : t ∈ f.map Prod.fst := by
        rw [← beq_iff_eq.mp hqe]
        exact List.mem_map_of_mem Prod.fst hq
      rw [if_pos hany] at this
      have hlen := congrArg List.length this
      simp at hlen
    · have ht : f.any (fun p => p.1 == t) = true :=
        List.any_eq_true.mpr ⟨p, hp, by simp [hpe]⟩
      exact hany ht

theorem bump_mem_val (f : List (String × Nat)) (t : String)
    (cnt : String → Nat)
    (hval : ∀ p ∈ f, p.2 = cnt p.1)
    (hpos : ∀ w, 0 < cnt w → f.any (fun p => p.1 == w) = true) :
    ∀ p ∈ bump f t, p.2 = cnt p.1 + (if p.1 = t then 1 else 0) := by
  intro p hp
  rw [bump] at hp
  by_cases ht : f.any (fun q => q.1 == t) = true
  · rw [if_pos ht] at hp
    obtain ⟨q, hq, hqe⟩ := List.mem_map.mp hp
    by_cases hqt : (q.1 == t) = true
    · rw [if_pos hqt] at hqe
      have hq1 : q.1 = t := beq_iff_eq.mp hqt
      rw [← hqe]
      simp only [hq1, if_pos]
      rw [hval q hq]
      rw [hq1]
    · rw [if_neg hqt] at hqe
      rw [← hqe]
      have hq1 : ¬q.1 = t := fun hx => hqt (beq_iff_eq.mpr hx)
      rw [if_neg hq1]
      exact hval q hq
  · rw [if_neg ht] at hp
    rcases List.mem_append.mp hp with hp | hp
    · have hp1 : ¬p.1 = t := by
        intro hx
        exact ht (List.any_eq_true.mpr ⟨p, hp, beq_iff_eq.mpr hx⟩)
      rw [if_neg hp1]
      exact hval p hp
    · rw [List.mem_singleton.mp hp]
      simp only [if_pos]
      have hcnt : cnt t = 0 := by
        by_contra hx
        exact absurd (hpos t (Nat.pos_of_ne_zero hx)) ht
      rw [hcnt]

theorem foldl_bump_inv :
    ∀ (toks : List String) (f : List (String × Nat)) (cnt : String → Nat),
      (f.map Prod.fst).Nodup →
      (∀ p ∈ f, p.2 = cnt p.1) →
      (∀ w, 0 < cnt w → f.any (fun p => p.1 == w) = true) →
      ((toks.foldl bump f).map Prod.fst).Nodup ∧
      (∀ p ∈ toks.foldl bump f, p.2 = cnt p.1 + toks.count p.1) := by
  intro toks
  induction toks with
  | nil =>
      intro f cnt hnd hval _
      refine ⟨hnd, ?_⟩
      intro p hp
      simp [hval p hp]
  | cons t ts ih =>
      intro f cnt hnd hval hpos
      rw [List.foldl_cons]
      have hstep := ih (bump f t)
        (fun x => cnt x + (if x = t then 1 else 0))
        (bump_keys_nodup f t hnd)
        (bump_mem_val f t cnt hval hpos)
        (by
          intro w hw
          by_cases hwt : w = t
          · exact hwt ▸ bump_any_self f t
          · change 0 < cnt w + (if w = t then 1 else 0) at hw
            rw [if_neg hwt] at hw
            simp only [Nat.add_zero] at hw
            exact bump_any_preserve f t w (hpos w hw))
      refine ⟨hstep.1, ?_⟩
      intro p hp
      rw [hstep.2 p hp]
      rw [List.count_cons]
      by_cases hpt : p.1 = t
      · simp [hpt]
        omega
      · have hne : ¬(p.1 == t) = true := fun hx => hpt (beq_iff_eq.mp hx)
        have hne' : ¬t = p.1 := fun hx => hpt hx.symm
        simp [hpt, hne, hne']

theorem freqMap_keys_nodup (tr : List Line) :
    ((freqMap tr).map Prod.fst).Nodup :=
  (foldl_bump_inv (keptTokens tr) [] (fun _ => 0) (by simp) (by simp)
    (by simp)).1

theorem freqMap_counts (tr : List Line) :
    ∀ p ∈ freqMap tr, p.2 = (keptTokens tr).count p.1 := by
  intro p hp
  have hx := (foldl_bump_inv (keptTokens tr) [] (fun _ => 0) (by simp)
    (by simp) (by simp)).2 p hp
  simpa using hx

theorem insertDesc_perm (x : String × Nat) :
    ∀ l : List (String × Nat), (insertDesc x l).Perm (x :: l) := by
  intro l
  induction l with
  | nil => exact List.Perm.refl _
  | cons q qs ih =>
      rw [insertDesc]
      by_cases h : x.2 ≤ q.2
      · rw [if_pos h]
        exact (ih.cons q).trans (List.Perm.swap x q qs)
      · rw [if_neg h]

theorem sortCountDesc_perm_aux :
    ∀ (l acc : List (String × Nat)),
      (l.foldl (fun acc x => insertDesc x acc) acc).Perm (acc ++ l) := by
  intro l
  induction l with
  | nil => intro acc; simp
  | cons x xs ih =>
      intro acc
      rw [List.foldl_cons]
      refine (ih (insertDesc x acc)).trans ?_
      refine (((insertDesc_perm x acc).append_right xs).trans ?_)
      rw [List.cons_append]
      exact List.perm_middle.symm

theorem sortCountDesc_perm (l : List (String × Nat)) :
    (sortCountDesc l).Perm l := by
  have := sortCountDesc_perm_aux l []
  simpa [sortCountDesc] using this

theorem mem_insertDesc {y x : String × Nat} {l : List (String × Nat)}
    (h : y ∈ insertDesc x l) : y = x ∨ y ∈ l := by
  have := (insertDesc_perm x l).mem_iff.mp h
  simpa using this

theorem insertDesc_sorted (x : String × Nat) :
    ∀ l : List (String × Nat),
      l.Pairwise (fun p q => q.2 ≤ p.2) →
      (insertDesc x l).Pairwise (fun p q => q.2 ≤ p.2) := by
  intro l
  induction l with
  | nil => intro _; exact List.pairwise_singleton _ x
  | cons q qs ih =>
      intro hp
      rw [List.pairwise_cons] at hp
      rw [insertDesc]
      by_cases h : x.2 ≤ q.2
      · rw [if_pos h]
        rw [List.pairwise_cons]
        refine ⟨?_, ih hp.2⟩
        intro y hy
        rcases mem_insertDesc hy with hy | hy
        · exact hy ▸ h
        · exact hp.1 y hy
      · rw [if_neg h]
        rw [List.pairwise_cons]
        refine ⟨?_, List.pairwise_cons.mpr hp⟩
        intro y hy
        rcases List.mem_cons.mp hy with hy | hy
        · exact hy ▸ Nat.le_of_lt (Nat.lt_of_not_le h)
        · exact Nat.le_trans (hp.1 y hy) (Nat.le_of_lt (Nat.lt_of_not_le h))

theorem sortCountDesc_sorted_aux :
    ∀ (l acc : List (String × Nat)),
      acc.Pairwise (fun p q => q.2 ≤ p.2) →
      (l.foldl (fun acc x => insertDesc x acc) acc).Pairwise
        (fun p q => q.2 ≤ p.2) := by
  intro l
  induction l with
  | nil => intro acc h; exact h
  | cons x xs ih =>
      intro acc h
      rw [List.foldl_cons]
      exact ih (insertDesc x acc) (insertDesc_sorted x acc h)

theorem sortCountDesc_sorted (l : List (String × Nat)) :
    (sortCountDesc l).Pairwise (fun p q => q.2 ≤ p.2) :=
  sortCountDesc_sorted_aux l [] List.Pairwise.nil

theorem insertDesc_filter (x : String × Nat) (c : Nat) :
    ∀ l : List (String × Nat),
      l.Pairwise (fun p q => q.2 ≤ p.2) →
      (insertDesc x l).filter (fun p => p.2 == c) =
        (if x.2 = c then l.filter (fun p => p.2 == c) ++ [x]
         else l.filter (fun p => p.2 == c)) := by
  intro l
  induction l with
  | nil =>
      intro _
      rw [insertDesc]
      by_cases hx : x.2 = c
      · simp [List.filter_cons, hx]
      · simp [List.filter_cons, hx]
  | cons q qs ih =>
      intro hp
      rw [List.pairwise_cons] at hp
      rw [insertDesc]
      by_cases h : x.2 ≤ q.2
      · rw [if_pos h]
        rw [List.filter_cons, List.filter_cons]
        by_cases hq : (q.2 == c) = true
        · rw [if_pos hq, if_pos hq, ih hp.2]
          by_cases hx : x.2 = c
          · rw [if_pos hx, if_pos hx, List.cons_append]
          · rw [if_neg hx, if_neg hx]
        · rw [if_neg hq, if_neg hq, ih hp.2]
      · rw [if_neg h]
        have hlt : q.2 < x.2 := Nat.lt_of_not_le h
        rw [List.filter_cons]
        by_cases hx : x.2 = c
        · rw [if_pos (by simp [hx])]
          have hnil : (q :: qs).filter (fun p => p.2 == c) = [] := by
            refine List.filter_eq_nil_iff.mpr ?_
            intro p hpm
            have hple : p.2 ≤ q.2 := by
              rcases List.mem_cons.mp hpm with hpm | hpm
              · exact hpm ▸ Nat.le_refl _
              · exact hp.1 p hpm
            simp only [beq_iff_eq]
            omega
          rw [if_pos hx, hnil]
          rfl
        · rw [if_neg (by simp [hx]), if_neg hx]

theorem sortCountDesc_filter_aux (c : Nat) :
    ∀ (l acc : List (String × Nat)),
      acc.Pairwise (fun p q => q.2 ≤ p.2) →
      (l.foldl (fun acc x => insertDesc x acc) acc).filter
          (fun p => p.2 == c) =
        acc.filter (fun p => p.2 == c) ++ l.filter (fun p => p.2 == c) := by
  intro l
  induction l with
  | nil => intro acc _; simp
  | cons x xs ih =>
      intro acc h
      rw [List.foldl_cons]
      rw [ih (insertDesc x acc) (insertDesc_sorted x acc h)]
      rw [insertDesc_filter x c acc h]
      rw [List.filter_cons]
      by_cases hx : x.2 = c
      · rw [if_pos hx, if_pos (by simp [hx])]
        simp
      · rw [if_neg hx, if_neg (by simp [hx])]

theorem sortCountDesc_filter (l : List (String × Nat)) (c : Nat) :
    (sortCountDesc l).filter (fun p => p.2 == c) =
      l.filter (fun p => p.2 == c) := by
  have := sortCountDesc_filter_aux c l [] List.Pairwise.nil
  simpa [sortCountDesc] using this

/-- The one-line transcript of the keyword-extraction scenario. -/
def demoKw : List Line :=
  [⟨0, 0, "testing testing integration integration integration the a", none⟩]

/-- Claim C6: keyword extraction.  The embedded getTopKeywords splits line
text on whitespace, lowercases and strips non-letters, and keeps tokens
longer than 4 characters that are not stop words; the theorem states that
the result has at most count words, all distinct, that the sorted pair list
is ordered by non-increasing frequency, that it is stable (restricted to any
fixed frequency it equals the first-encounter-ordered frequency map, so ties
keep first-encounter order), that every frequency-map count is the exact
occurrence count of that token among the kept tokens, and the scenario: the
demo line with count 2 yields integration then testing. -/
theorem C6_keywords :
    (∀ (tr : List Line) (n : Nat), (getTopKeywords tr n).length ≤ n) ∧
    (∀ (tr : List Line) (n : Nat), (getTopKeywords tr n).Nodup) ∧
    (∀ tr : List Line,
      (sortCountDesc (freqMap tr)).Pairwise (fun p q => q.2 ≤ p.2)) ∧
    (∀ (tr : List Line) (c : Nat),
      (sortCountDesc (freqMap tr)).filter (fun p => p.2 == c) =
        (freqMap tr).filter (fun p => p.2 == c)) ∧
    (∀ (tr : List Line), ∀ p ∈ freqMap tr,
      p.2 = (keptTokens tr).count p.1) ∧
    getTopKeywords demoKw 2 = ["integration", "testing"] := by
  refine ⟨?_, ?_, fun tr => sortCountDesc_sorted (freqMap tr),
    fun tr c => sortCountDesc_filter (freqMap tr) c,
    freqMap_counts, by decide⟩
  · intro tr n
    rw [getTopKeywords, List.length_map, List.length_take]
    exact Nat.min_le_left n _
  · intro tr n
    rw [getTopKeywords]
    have hnd : ((sortCountDesc (freqMap tr)).map Prod.fst).Nodup :=
      (((sortCountDesc_perm (freqMap tr)).map Prod.fst).nodup_iff).mpr
        (freqMap_keys_nodup tr)
    exact List.Nodup.sublist
      (List.Sublist.map Prod.fst (List.take_sublist n _)) hnd

/-- Witness for C6: the frequency-map count of integration in the demo
transcript is its occurrence count among the kept tokens. -/
theorem C6_keywords_witness :
    ((("integration", 3) : String × Nat)).2 =
      (keptTokens demoKw).count "integration" :=
  C6_keywords.2.2.2.2.1 demoKw ("integration", 3) (by decide)

theorem jsJoin_cons (sep x : String) :
    ∀ ys : List String, ys ≠ [] →
      jsJoin sep (x :: ys) = x ++ sep ++ jsJoin sep ys := by
  intro ys
  induction ys generalizing x with
  | nil => intro h; exact absurd rfl h
  | cons y ys' ih =>
      intro _
      show jsJoin sep ((x ++ sep ++ y) :: ys') = x ++ sep ++ jsJoin sep (y :: ys')
      cases ys' with
      | nil => rfl
      | cons z zs =>
          rw [ih (x := x ++ sep ++ y) (by simp), ih (x := y) (by simp)]
          simp [String.append_assoc]

theorem countNL_append (a b : String) :
    countNL (a ++ b) = countNL a + countNL b := by
  show (a.data ++ b.data).count '\n' = a.data.count '\n' + b.data.count '\n'
  exact List.count_append '\n' a.data b.data

theorem countNL_jsJoinNL :
    ∀ (rs : List String) (r : String),
      countNL (jsJoin "\n" (r :: rs)) =
        countNL r + (rs.map countNL).sum + rs.length := by
  intro rs
  induction rs with
  | nil => intro r; simp [jsJoin, countNL]
  | cons y ys ih =>
      intro r
      rw [jsJoin_cons "\n" r (y :: ys) (by simp)]
      rw [countNL_append, countNL_append, ih y]
      have h1 : countNL "\n" = 1 := rfl
      rw [h1, List.map_cons, List.sum_cons, List.length_cons]
      omega

/-- The comma-joined row text of one entry, fields unescaped. -/
def rowString (e : Entry) : String :=
  e.word ++ "," ++ e.translation ++ "," ++ e.lang

theorem csvRows_eq (bank : List Entry) :
    csvRows bank = "Word,Translation,Language" :: bank.map rowString := by
  rw [csvRows, List.map_cons, List.map_map]
  refine congrArg₂ List.cons rfl ?_
  refine List.map_congr_left ?_
  intro e _
  rfl

theorem splitByAux_no_sep (p : Char → Bool) :
    ∀ (xs acc : List Char), (∀ ch ∈ xs, p ch = false) →
      splitByAux p xs acc = [acc.reverse ++ xs] := by
  intro xs
  induction xs with
  | nil => intro acc _; simp [splitByAux]
  | cons x xs ih =>
      intro acc h
      rw [splitByAux, if_neg (by simp [h x (List.mem_cons_self x xs)])]
      rw [ih (x :: acc) (fun ch hch => h ch (List.mem_cons_of_mem x hch))]
      simp

theorem splitByAux_sep (p : Char → Bool) (c : Char) (hc : p c = true) :
    ∀ (xs : List Char) (acc ys : List Char), (∀ ch ∈ xs, p ch = false) →
      splitByAux p (xs ++ c :: ys) acc =
        (acc.reverse ++ xs) :: splitByAux p ys [] := by
  intro xs
  induction xs with
  | nil =>
      intro acc ys _
      rw [List.nil_append, splitByAux, if_pos hc]
      simp
  | cons x xs ih =>
      intro acc ys h
      rw [List.cons_append, splitByAux,
        if_neg (by simp [h x (List.mem_cons_self x xs)])]
      rw [ih (x :: acc) ys (fun ch hch => h ch (List.mem_cons_of_mem x hch))]
      simp

theorem splitBy_jsJoinNL :
    ∀ (rs : List String) (r : String),
      (∀ s ∈ r :: rs, ∀ ch ∈ s.data, (ch == '\n') = false) →
      splitBy (fun ch => ch == '\n') (jsJoin "\n" (r :: rs)) = r :: rs := by
  intro rs
  induction rs with
  | nil =>
      intro r h
      rw [splitBy]
      have hj : jsJoin "\n" [r] = r := rfl
      rw [hj]
      rw [splitByAux_no_sep _ r.data [] (h r (List.mem_cons_self r []))]
      simp
  | cons y ys ih =>
      intro r h
      rw [jsJoin_cons "\n" r (y :: ys) (by simp), splitBy]
      have hdata : (r ++ "\n" ++ jsJoin "\n" (y :: ys)).data =
          r.data ++ '\n' :: (jsJoin "\n" (y :: ys)).data := by
        show (r.data ++ ['\n']) ++ (jsJoin "\n" (y :: ys)).data = _
        rw [List.append_assoc]
        rfl
      rw [hdata]
      rw [splitByAux_sep _ '\n' rfl r.data []
        (jsJoin "\n" (y :: ys)).data (h r (List.mem_cons_self r _))]
      rw [List.map_cons]
      have htail := ih y (fun s hs => h s (List.mem_cons_of_mem r hs))
      rw [splitBy] at htail
      rw [htail]
      simp

theorem mem_rowString_data {e : Entry} {ch : Char}
    (hch : ch ∈ (rowString e).data) :
    ch ∈ e.word.data ∨ ch ∈ e.translation.data ∨ ch ∈ e.lang.data ∨
      ch = ',' := by
  have hd : ch ∈ (((e.word.data ++ [',']) ++ e.translation.data) ++ [',']) ++
      e.lang.data := hch
  simp only [List.mem_append, List.mem_singleton] at hd
  tauto

theorem countNL_rowString (e : Entry)
    (hw : '\n' ∉ e.word.data) (ht : '\n' ∉ e.translation.data)
    (hl : '\n' ∉ e.lang.data) : countNL (rowString e) = 0 := by
  rw [rowString, countNL_append, countNL_append, countNL_append,
    countNL_append]
  rw [countNL, countNL, countNL]
  rw [List.count_eq_zero.mpr hw, List.count_eq_zero.mpr ht]
  rw [countNL, List.count_eq_zero.mpr hl]
  rfl

/-- Counterexample to claim C8 as stated: a store reachable by a single save
whose external translation resolved to a two-line string.  The store has one
entry but the export has three lines, not two, because embedded newlines in
field values are not escaped either. -/
theorem C8_csv_counterexample :
    (saveWord [] [] "hi" "ar" (some "a\nb") 0).1.length = 1 ∧
    lineCount (vocabCSV (saveWord [] [] "hi" "ar" (some "a\nb") 0).1) = 3 ∧
    ¬(lineCount (vocabCSV (saveWord [] [] "hi" "ar" (some "a\nb") 0).1) =
        (saveWord [] [] "hi" "ar" (some "a\nb") 0).1.length + 1) := by
  decide

/-- Claim C8 amended: for every store none of whose field values contains a
newline character, the CSV export is comma-separated text whose lines are
exactly the header Word,Translation,Language followed by one unescaped
comma-joined row per entry in store order, hence exactly N+1 lines for N
entries.  (Embedded commas are not escaped; embedded newlines, which the
translation service could return, break the line count, which is why the
newline-free hypothesis is needed.) -/
theorem C8_csv_export (bank : List Entry)
    (h : ∀ e ∈ bank, '\n' ∉ e.word.data ∧ '\n' ∉ e.translation.data ∧
      '\n' ∉ e.lang.data) :
    lineCount (vocabCSV bank) = bank.length + 1 ∧
    splitBy (fun ch => ch == '\n') (vocabCSV bank) =
      "Word,Translation,Language" :: bank.map rowString := by
  have hrows := csvRows_eq bank
  constructor
  · rw [lineCount, vocabCSV, hrows]
    rw [countNL_jsJoinNL (bank.map rowString) "Word,Translation,Language"]
    have hhdr : countNL "Word,Translation,Language" = 0 := rfl
    have hsum : ((bank.map rowString).map countNL).sum = 0 := by
      refine List.sum_eq_zero ?_
      intro x hx
      obtain ⟨s, hs, hsx⟩ := List.mem_map.mp hx
      obtain ⟨e, he, hes⟩ := List.mem_map.mp hs
      obtain ⟨hw, ht, hl⟩ := h e he
      rw [← hsx, ← hes]
      exact countNL_rowString e hw ht hl
    rw [hhdr, hsum, List.length_map]
    omega
  · rw [vocabCSV, hrows]
    refine splitBy_jsJoinNL (bank.map rowString)
      "Word,Translation,Language" ?_
    intro s hs ch hch
    rcases List.mem_cons.mp hs with hs | hs
    · subst hs
      revert hch
      revert ch
      decide
    · obtain ⟨e, he, hes⟩ := List.mem_map.mp hs
      obtain ⟨hw, ht, hl⟩ := h e he
      rw [← hes] at hch
      refine beq_eq_false_iff_ne.mpr ?_
      intro hiseq
      subst hiseq
      rcases mem_rowString_data hch with hx | hx | hx | hx
      · exact hw hx
      · exact ht hx
      · exact hl hx
      · cases hx

/-- Witness for the amended C8 at a one-entry store. -/
theorem C8_csv_export_witness :
    lineCount (vocabCSV [⟨"hello", "bonjour", "fr", 0⟩]) =
      ([⟨"hello", "bonjour", "fr", 0⟩] : List Entry).length + 1 ∧
    splitBy (fun ch => ch == '\n') (vocabCSV [⟨"hello", "bonjour", "fr", 0⟩]) =
      "Word,Translation,Language" ::
        ([⟨"hello", "bonjour", "fr", 0⟩] : List Entry).map rowString :=
  C8_csv_export [⟨"hello", "bonjour", "fr", 0⟩] (by decide)

/-- A concrete four-entry bank used to witness the quiz-option claim. -/
def demoBank : List Entry :=
  [⟨"aa", "ta", "ar", 0⟩, ⟨"bb", "tb", "ar", 0⟩,
   ⟨"cc", "tc", "ar", 0⟩, ⟨"dd", "td", "ar", 0⟩]

/-- Witness for C5 at the four-entry bank with quiz index 0 and identity
shuffles. -/
theorem C5_quiz_options_witness :
    (4 ≤ demoBank.length →
      ([⟨"bb", "tb", "ar", 0⟩, ⟨"cc", "tc", "ar", 0⟩, ⟨"dd", "td", "ar", 0⟩,
        ⟨"aa", "ta", "ar", 0⟩] : List Entry).length = 4 ∧
      ([⟨"bb", "tb", "ar", 0⟩, ⟨"cc", "tc", "ar", 0⟩, ⟨"dd", "td", "ar", 0⟩,
        ⟨"aa", "ta", "ar", 0⟩] : List Entry).Nodup ∧
      ([⟨"bb", "tb", "ar", 0⟩, ⟨"cc", "tc", "ar", 0⟩, ⟨"dd", "td", "ar", 0⟩,
        ⟨"aa", "ta", "ar", 0⟩] : List Entry).count ⟨"aa", "ta", "ar", 0⟩ = 1) ∧
    ((demoBank.length = 2 ∨ demoBank.length = 3) →
      ([⟨"bb", "tb", "ar", 0⟩, ⟨"cc", "tc", "ar", 0⟩, ⟨"dd", "td", "ar", 0⟩,
        ⟨"aa", "ta", "ar", 0⟩] : List Entry).Perm demoBank) :=
  C5_quiz_options demoBank 0
    [⟨"bb", "tb", "ar", 0⟩, ⟨"cc", "tc", "ar", 0⟩, ⟨"dd", "td", "ar", 0⟩]
    [⟨"bb", "tb", "ar", 0⟩, ⟨"cc", "tc", "ar", 0⟩, ⟨"dd", "td", "ar", 0⟩,
     ⟨"aa", "ta", "ar", 0⟩]
    ⟨"aa", "ta", "ar", 0⟩
    (by decide) (by decide) (by decide) (by decide) (by decide)
theorem C10_translation_fallback_witness :
    ∃ e : Entry,
      (saveWord [] [] "Hello!" "ar" none 3).1 = e :: [] ∧
      e.word = cleanSave "Hello!" ∧
      e.translation.isEmpty = false ∧
      ((jsTruthy (cacheGet [] (cacheKey (cleanSave "Hello!") "ar")) = false ∧
          (none : Option String) = none) →
        e.translation = cleanSave "Hello!") :=
  C10_translation_fallback [] [] "Hello!" "ar" none 3 (by decide)
